import Mathlib

/-!
Verification of the `containers` maps package: an unordered hash-backed map,
an insertion-order-preserving map, and a default-implementation layer that
derives the extended operations (`Clear`, `Len`, `LoadAndDelete`,
`LoadOrStore`, `Swap`, `CompareAndSwap`, `CompareAndDelete`, `Keys`,
`Values`) from the four primitives (`Load`, `Store`, `Delete`, `Range`).

Embedding choices:
- The Go hash map backing `UnorderedMap` is modelled as an association list
  with the comma-ok `Load` returning `Option`.
- `OrderedMap` is modelled as the pair of its two structures: the hash index
  `idx` (key to node handle, an association list over fresh `Nat` node ids)
  and the doubly-linked list `lst` (node id with its entry, in list order),
  together with the allocation counter `nid` for fresh node handles.
- `DefaultAbstractMap` is a record of the four primitive operations; each
  derived operation is a function of that record, translated line by line
  from `abstract_map.go`.
- Visitors are pure functions; early termination of `Range`/`Keys`/`Values`
  is modelled by the invocation-counting function `runVisit`.
-/

/-- First-match association-list lookup: the comma-ok lookup of a Go map
(`v, ok := m[k]`), with `none` playing the role of `ok = false`. -/
def alookup {K : Type} {A : Type} [DecidableEq K] : List (K × A) → K → Option A
  | [], _ => none
  | p :: ps, k => if p.1 = k then some p.2 else alookup ps k

/-- `UnorderedMap` state: the backing Go map `m map[K]V`, as an association
list (iteration order of the Go map is unspecified; the list order stands in
for one such order). -/
abbrev UMap (K V : Type) : Type := List (K × V)

/-- `UnorderedMap.Load`: `value, ok = m.m[key]`. -/
def uLoad {K V : Type} [DecidableEq K] (m : UMap K V) (k : K) : Option V :=
  alookup m k

/-- `UnorderedMap.Store`: `m.m[key] = value` (overwrite if present, insert
otherwise). -/
def uStore {K V : Type} [DecidableEq K] (m : UMap K V) (k : K) (v : V) : UMap K V :=
  if (alookup m k).isSome then
    m.map (fun p => if p.1 = k then (p.1, v) else p)
  else
    m ++ [(k, v)]

/-- `UnorderedMap.Delete`: `delete(m.m, key)` (no-op if absent). -/
def uDelete {K V : Type} [DecidableEq K] (m : UMap K V) (k : K) : UMap K V :=
  m.filter (fun p => p.1 ≠ k)

/-- `UnorderedMap.Range`: the sequence of key-value pairs the loop
`for k, v := range m.m` would present to the visitor. -/
def uRange {K V : Type} (m : UMap K V) : List (K × V) :=
  m

/-- `UnorderedMap.Len`: `len(m.m)`, the number of keys of the hash map. -/
def uLen {K V : Type} (m : UMap K V) : Nat :=
  m.length

/-- `OrderedMap` state: the hash index `m map[K]*list.Element` (modelled as
an association list from keys to node ids), the doubly-linked list `l`
holding `(id, entry)` nodes in list order, and the supply `nid` of fresh
node ids standing in for fresh `*list.Element` pointers. -/
structure OMap (K V : Type) : Type where
  idx : List (K × Nat)
  lst : List (Nat × (K × V))
  nid : Nat

/-- `NewOrderedMap`: empty index, empty list. -/
def oNew {K V : Type} : OMap K V :=
  ⟨[], [], 0⟩

/-- `OrderedMap.Load`: index lookup, then read the node's value. -/
def oLoad {K V : Type} [DecidableEq K] (om : OMap K V) (k : K) : Option V :=
  match alookup om.idx k with
  | none => none
  | some e => (alookup om.lst e).map (fun p => p.2)

/-- `OrderedMap.Store`: if the key is present, update the node's value in
place; else append a fresh node at the tail of the list and index it. -/
def oStore {K V : Type} [DecidableEq K] (om : OMap K V) (k : K) (v : V) : OMap K V :=
  match alookup om.idx k with
  | some e =>
      ⟨om.idx, om.lst.map (fun n => if n.1 = e then (n.1, (n.2.1, v)) else n), om.nid⟩
  | none =>
      ⟨om.idx ++ [(k, om.nid)], om.lst ++ [(om.nid, (k, v))], om.nid + 1⟩

/-- `OrderedMap.Delete`: remove the key from the index and its node from the
list; no-op if absent. -/
def oDelete {K V : Type} [DecidableEq K] (om : OMap K V) (k : K) : OMap K V :=
  match alookup om.idx k with
  | some e =>
      ⟨om.idx.filter (fun p => p.1 ≠ k), om.lst.filter (fun n => n.1 ≠ e), om.nid⟩
  | none => om

/-- `OrderedMap.Len`: `len(om.m)`, the size of the hash index. -/
def oLen {K V : Type} (om : OMap K V) : Nat :=
  om.idx.length

/-- `OrderedMap.Range`: the sequence of entries visited by walking the list
from `Front` via `Next`, i.e. the entries of `lst` in order. -/
def oRange {K V : Type} (om : OMap K V) : List (K × V) :=
  om.lst.map (fun n => n.2)

/-- The four primitive operations `MapOps` that a concrete backend wires
into `DefaultAbstractMap`; `range` yields the full visit sequence. -/
structure MapImpl (S K V : Type) : Type where
  load : S → K → Option V
  store : S → K → V → S
  delete : S → K → S
  range : S → List (K × V)

/-- The `UnorderedMap` backend, as passed to `NewDefaultAbstractMap`. -/
def uImpl (K V : Type) [DecidableEq K] : MapImpl (UMap K V) K V :=
  ⟨uLoad, uStore, uDelete, uRange⟩

/-- The `OrderedMap` backend, as passed to `NewDefaultAbstractMap`. -/
def oImpl (K V : Type) [DecidableEq K] : MapImpl (OMap K V) K V :=
  ⟨oLoad, oStore, oDelete, oRange⟩

/-- `DefaultAbstractMap.Clear`: collect all current keys in one `Range`
pass, then `Delete` each collected key. -/
def dClear {S K V : Type} (M : MapImpl S K V) (s : S) : S :=
  ((M.range s).map (fun p => p.1)).foldl M.delete s

/-- `DefaultAbstractMap.Len`: count by fully draining `Range`. -/
def dLen {S K V : Type} (M : MapImpl S K V) (s : S) : Nat :=
  (M.range s).length

/-- `DefaultAbstractMap.LoadAndDelete`: `Load`, then `Delete` if found;
returns the value at time of load together with the loaded flag. -/
def dLoadAndDelete {S K V : Type} (M : MapImpl S K V) (s : S) (k : K) :
    S × Option V :=
  match M.load s k with
  | none => (s, none)
  | some v => (M.delete s k, some v)

/-- `DefaultAbstractMap.LoadOrStore`: return the existing value with
`loaded = true` if present, else `Store` the given value and return it with
`loaded = false`. The returned pair is `(actual, loaded)`. -/
def dLoadOrStore {S K V : Type} (M : MapImpl S K V) (s : S) (k : K) (v : V) :
    S × (V × Bool) :=
  match M.load s k with
  | some actual => (s, (actual, true))
  | none => (M.store s k v, (v, false))

/-- `DefaultAbstractMap.Swap`: `Load` to capture the prior state, then
unconditionally `Store`; the `Option` result is `(previous, loaded)`. -/
def dSwap {S K V : Type} (M : MapImpl S K V) (s : S) (k : K) (v : V) :
    S × Option V :=
  (M.store s k v, M.load s k)

/-- `DefaultAbstractMap.CompareAndSwap`: store `new` and report true only if
the key is present and its current value equals `old`. -/
def dCompareAndSwap {S K V : Type} [DecidableEq V] (M : MapImpl S K V)
    (s : S) (k : K) (old new : V) : S × Bool :=
  match M.load s k with
  | none => (s, false)
  | some value =>
      if value = old then (M.store s k new, true) else (s, false)

/-- `DefaultAbstractMap.CompareAndDelete`: delete and report true only if
the key is present and its current value equals `old`. -/
def dCompareAndDelete {S K V : Type} [DecidableEq V] (M : MapImpl S K V)
    (s : S) (k : K) (old : V) : S × Bool :=
  match M.load s k with
  | none => (s, false)
  | some value =>
      if value = old then (M.delete s k, true) else (s, false)

/-- Number of visitor invocations performed by `Range` with the pure
visitor `f`: traversal stops right after the first `false`. -/
def runVisit {K V : Type} (f : K → V → Bool) : List (K × V) → Nat
  | [] => 0
  | p :: ps => if f p.1 p.2 then runVisit f ps + 1 else 1

/-- `DefaultAbstractMap.Keys`: `Range` projected to keys, same early
termination; measured as the number of visitor invocations. -/
def dKeysCount {S K V : Type} (M : MapImpl S K V) (s : S) (f : K → Bool) : Nat :=
  runVisit (fun k _ => f k) (M.range s)

/-- `DefaultAbstractMap.Values`: `Range` projected to values, same early
termination; measured as the number of visitor invocations. -/
def dValuesCount {S K V : Type} (M : MapImpl S K V) (s : S) (f : V → Bool) : Nat :=
  runVisit (fun _ v => f v) (M.range s)

/-! ### Association-list lookup lemmas -/

theorem alookup_eq_none {K A : Type} [DecidableEq K] (l : List (K × A)) (k : K) :
    alookup l k = none ↔ k ∉ l.map (fun p => p.1) := by
  induction l with
  | nil => simp [alookup]
  | cons p ps ih =>
    by_cases h : p.1 = k
    · simp [alookup, h]
    · simp only [alookup, if_neg h, List.map_cons, List.mem_cons, ih]
      constructor
      · rintro hn (hk | hk)
        · exact h hk.symm
        · exact hn hk
      · intro hn
        exact fun hk => hn (Or.inr hk)

theorem alookup_isSome {K A : Type} [DecidableEq K] (l : List (K × A)) (k : K) :
    (alookup l k).isSome = true ↔ k ∈ l.map (fun p => p.1) := by
  rcases h : alookup l k with _ | b
  · simpa [h] using (alookup_eq_none l k).mp h
  · simp only [Option.isSome_some, true_iff]
    by_contra hk
    rw [(alookup_eq_none l k).mpr hk] at h
    exact Option.noConfusion h

theorem alookup_mem {K A : Type} [DecidableEq K] {l : List (K × A)} {k : K} {b : A} :
    alookup l k = some b → (k, b) ∈ l := by
  induction l with
  | nil => intro h; exact Option.noConfusion h
  | cons p ps ih =>
    intro h
    by_cases hp : p.1 = k
    · simp only [alookup, if_pos hp] at h
      obtain rfl := Option.some.inj h
      have hpe : (k, p.2) = p := by rw [← hp]
      rw [← hpe]
      exact List.mem_cons_self _ _
    · simp only [alookup, if_neg hp] at h
      exact List.mem_cons_of_mem _ (ih h)

theorem alookup_of_mem_nodup {K A : Type} [DecidableEq K] {l : List (K × A)} {k : K} {b : A}
    (hn : (l.map (fun p => p.1)).Nodup) (hm : (k, b) ∈ l) : alookup l k = some b := by
  induction l with
  | nil => exact absurd hm (List.not_mem_nil _)
  | cons p ps ih =>
    simp only [List.map_cons, List.nodup_cons] at hn
    cases hm with
    | head => simp [alookup]
    | tail _ hm =>
      have hp : p.1 ≠ k := by
        intro he
        refine hn.1 ?_
        rw [he]
        exact List.mem_map_of_mem _ hm
      simp only [alookup, if_neg hp]
      exact ih hn.2 hm

theorem alookup_append_some {K A : Type} [DecidableEq K] {l l2 : List (K × A)} {k : K} {b : A}
    (h : alookup l k = some b) : alookup (l ++ l2) k = some b := by
  induction l with
  | nil => exact absurd h (by simp [alookup])
  | cons p ps ih =>
    by_cases hp : p.1 = k
    · simp only [alookup, if_pos hp] at h
      simp [alookup, hp, h]
    · simp only [alookup, if_neg hp] at h
      simpa [alookup, hp] using ih h

theorem alookup_append_none {K A : Type} [DecidableEq K] {l : List (K × A)} (l2 : List (K × A))
    {k : K} (h : alookup l k = none) : alookup (l ++ l2) k = alookup l2 k := by
  induction l with
  | nil => simp
  | cons p ps ih =>
    by_cases hp : p.1 = k
    · simp [alookup, hp] at h
    · simp only [alookup, if_neg hp] at h
      simpa [alookup, hp] using ih h

theorem alookup_filter_ne {K A : Type} [DecidableEq K] (l : List (K × A)) (a k : K)
    (h : k ≠ a) : alookup (l.filter (fun p => p.1 ≠ a)) k = alookup l k := by
  induction l with
  | nil => simp
  | cons p ps ih =>
    simp only [ne_eq, decide_not] at ih ⊢
    have hak : a ≠ k := fun he => h he.symm
    by_cases hp : p.1 = a
    · simp [alookup, List.filter_cons, hp, hak, ih]
    · by_cases hk : p.1 = k
      · simp [alookup, List.filter_cons, hp, hk, h]
      · simp [alookup, List.filter_cons, hp, hk, ih]

theorem alookup_filter_self {K A : Type} [DecidableEq K] (l : List (K × A)) (a : K) :
    alookup (l.filter (fun p => p.1 ≠ a)) a = none := by
  rw [alookup_eq_none]
  intro hm
  rcases List.mem_map.mp hm with ⟨p, hp, hpa⟩
  have := List.of_mem_filter hp
  simp only [ne_eq, decide_not, Bool.not_eq_true', decide_eq_false_iff_not] at this
  exact this hpa

/-! ### The OrderedMap correspondence invariant -/

/-- The keys of the ordered map's list, in list order. -/
def oKeys {K V : Type} (om : OMap K V) : List K :=
  om.lst.map (fun n => n.2.1)

/-- Structural invariant of `OrderedMap`: the index holds exactly one entry
per list node, pointing back at its node; node ids and entry keys are
unique; all allocated node ids are below the fresh-id counter. -/
def OInv {K V : Type} (om : OMap K V) : Prop :=
  om.idx = om.lst.map (fun n => (n.2.1, n.1)) ∧
  (om.lst.map (fun n => n.1)).Nodup ∧
  (om.lst.map (fun n => n.2.1)).Nodup ∧
  ∀ n ∈ om.lst, n.1 < om.nid

theorem oInv_new {K V : Type} : OInv (oNew : OMap K V) :=
  ⟨rfl, List.nodup_nil, List.nodup_nil, fun n hn => absurd hn (List.not_mem_nil n)⟩

theorem oKeys_eq_idx_keys {K V : Type} {om : OMap K V} (h : OInv om) :
    om.idx.map (fun p => p.1) = oKeys om := by
  rw [h.1, List.map_map]
  rfl

theorem oinv_lookup_node {K V : Type} [DecidableEq K] {om : OMap K V} {k : K} {e : Nat}
    (h : OInv om) (he : alookup om.idx k = some e) :
    ∃ w, (e, (k, w)) ∈ om.lst := by
  have hm : (k, e) ∈ om.idx := alookup_mem he
  rw [h.1] at hm
  rcases List.mem_map.mp hm with ⟨n, hn, hne⟩
  have h1 : n.2.1 = k := congrArg Prod.fst hne
  have h2 : n.1 = e := congrArg Prod.snd hne
  refine ⟨n.2.2, ?_⟩
  have hne2 : n = (e, (k, n.2.2)) := by
    obtain ⟨i, kk, vv⟩ := n
    simp only at h1 h2
    rw [h1, h2]
  rw [← hne2]
  exact hn

theorem oinv_id_key {K V : Type} [DecidableEq K] {om : OMap K V} {k : K} {e : Nat}
    (h : OInv om) (he : alookup om.idx k = some e) :
    ∀ n ∈ om.lst, (n.1 = e ↔ n.2.1 = k) := by
  obtain ⟨w, hw⟩ := oinv_lookup_node h he
  intro n hn
  constructor
  · intro h1
    have hne : n = (e, (k, w)) :=
      List.inj_on_of_nodup_map h.2.1 hn hw (by simpa using h1)
    rw [hne]
  · intro h1
    have hne : n = (e, (k, w)) :=
      List.inj_on_of_nodup_map h.2.2.1 hn hw (by simpa using h1)
    rw [hne]

theorem oDelete_lst_filter_key {K V : Type} [DecidableEq K] {om : OMap K V} {k : K} {e : Nat}
    (h : OInv om) (he : alookup om.idx k = some e) :
    om.lst.filter (fun n => n.1 ≠ e) = om.lst.filter (fun n => n.2.1 ≠ k) := by
  apply List.filter_congr
  intro n hn
  have hiff := oinv_id_key h he n hn
  simp only [ne_eq, decide_not]
  exact congrArg Bool.not (decide_eq_decide.mpr hiff)

theorem oinv_store {K V : Type} [DecidableEq K] {om : OMap K V} (h : OInv om) (k : K) (v : V) :
    OInv (oStore om k v) := by
  obtain ⟨hcorr, hids, hkeys, hfresh⟩ := h
  rcases he : alookup om.idx k with _ | e
  · have hk : k ∉ om.idx.map (fun p => p.1) := (alookup_eq_none _ _).mp he
    simp only [oStore, he]
    refine ⟨?_, ?_, ?_, ?_⟩
    · simp [hcorr]
    · rw [List.map_append, List.nodup_append]
      refine ⟨hids, by simp, ?_⟩
      intro i hi hi2
      simp only [List.map_cons, List.map_nil, List.mem_cons, List.not_mem_nil, or_false] at hi2
      rcases List.mem_map.mp hi with ⟨n, hn, hni⟩
      have := hfresh n hn
      omega
    · rw [List.map_append, List.nodup_append]
      refine ⟨hkeys, by simp, ?_⟩
      intro x hx hx2
      simp only [List.map_cons, List.map_nil, List.mem_cons, List.not_mem_nil, or_false] at hx2
      rw [hcorr] at hk
      rw [List.map_map] at hk
      exact hk (hx2 ▸ hx)
    · intro n hn
      rcases List.mem_append.mp hn with hn | hn
      · exact Nat.lt_succ_of_lt (hfresh n hn)
      · simp only [List.mem_cons, List.not_mem_nil, or_false] at hn
        rw [hn]
        exact Nat.lt_succ_self _
  · simp only [oStore, he]
    have hmap : ∀ (f : Nat × (K × V) → Nat × (K × V)),
        (∀ n, (f n).1 = n.1 ∧ (f n).2.1 = n.2.1) → True := fun _ _ => trivial
    refine ⟨?_, ?_, ?_, ?_⟩
    · rw [List.map_map, hcorr]
      apply List.map_congr_left
      intro n _
      by_cases hne : n.1 = e <;> simp [hne]
    · rw [List.map_map]
      have : (om.lst.map (fun n => if n.1 = e then (n.1, (n.2.1, v)) else n)).map
          (fun n => n.1) = om.lst.map (fun n => n.1) := by
        rw [List.map_map]
        apply List.map_congr_left
        intro n _
        by_cases hne : n.1 = e <;> simp [hne]
      rw [← List.map_map, this]
      exact hids
    · have : (om.lst.map (fun n => if n.1 = e then (n.1, (n.2.1, v)) else n)).map
          (fun n => n.2.1) = om.lst.map (fun n => n.2.1) := by
        rw [List.map_map]
        apply List.map_congr_left
        intro n _
        by_cases hne : n.1 = e <;> simp [hne]
      rw [this]
      exact hkeys
    · intro n hn
      rcases List.mem_map.mp hn with ⟨m, hm, hmn⟩
      have := hfresh m hm
      by_cases hne : m.1 = e <;> simp [hne] at hmn <;> rw [← hmn] <;> simpa [hne]

theorem oinv_delete {K V : Type} [DecidableEq K] {om : OMap K V} (h : OInv om) (k : K) :
    OInv (oDelete om k) := by
  rcases he : alookup om.idx k with _ | e
  · simpa [oDelete, he] using h
  · have hfk := oDelete_lst_filter_key h he
    obtain ⟨hcorr, hids, hkeys, hfresh⟩ := h
    simp only [oDelete, he]
    refine ⟨?_, ?_, ?_, ?_⟩
    · rw [hfk, hcorr, List.filter_map]
      rfl
    · exact hids.sublist (List.Sublist.map _ (List.filter_sublist _))
    · exact hkeys.sublist (List.Sublist.map _ (List.filter_sublist _))
    · intro n hn
      exact hfresh n (List.mem_of_mem_filter hn)

/-! ### Load after Store and Delete, for both backends -/

theorem alookup_map_set {K V : Type} [DecidableEq K] (m : List (K × V)) (k : K) (v : V)
    {w : V} (h : alookup m k = some w) :
    alookup (m.map (fun p => if p.1 = k then (p.1, v) else p)) k = some v := by
  induction m with
  | nil => exact absurd h (by simp [alookup])
  | cons p ps ih =>
    by_cases hp : p.1 = k
    · simp [alookup, hp]
    · simp only [alookup, if_neg hp] at h
      simp [alookup, hp, ih h]

theorem alookup_map_set_ne {K V : Type} [DecidableEq K] (m : List (K × V)) (k' : K) (v : V)
    (k : K) (hne : k' ≠ k) :
    alookup (m.map (fun p => if p.1 = k' then (p.1, v) else p)) k = alookup m k := by
  induction m with
  | nil => simp
  | cons p ps ih =>
    by_cases hp : p.1 = k'
    · have hpk : p.1 ≠ k := fun he => hne (hp ▸ he)
      simp [alookup, hp, hpk, hne, ih]
    · by_cases hk : p.1 = k
      · simp [alookup, hp, hk, Ne.symm hne]
      · simp [alookup, hp, hk, ih]

theorem alookup_map_upd_ne {K V : Type} (l : List (Nat × (K × V))) (v : V) (e e' : Nat)
    (h : e ≠ e') :
    alookup (l.map (fun n => if n.1 = e' then (n.1, (n.2.1, v)) else n)) e = alookup l e := by
  induction l with
  | nil => simp
  | cons n ns ih =>
    by_cases hn : n.1 = e'
    · have hne : n.1 ≠ e := fun he => h (by rw [← he, hn])
      simp [alookup, hn, hne, Ne.symm h, ih]
    · by_cases he : n.1 = e
      · simp [alookup, hn, he, h]
      · simp [alookup, hn, he, ih]

theorem uLoad_uStore_self {K V : Type} [DecidableEq K] (m : UMap K V) (k : K) (v : V) :
    uLoad (uStore m k v) k = some v := by
  rcases hs : alookup m k with _ | w
  · simp only [uLoad, uStore, hs, Option.isSome_none, Bool.false_eq_true, if_false]
    rw [alookup_append_none _ hs]
    simp [alookup]
  · simp only [uLoad, uStore, hs, Option.isSome_some, if_true]
    exact alookup_map_set m k v hs

theorem uLoad_uStore_ne {K V : Type} [DecidableEq K] (m : UMap K V) {k' k : K} (v : V)
    (hne : k' ≠ k) : uLoad (uStore m k' v) k = uLoad m k := by
  unfold uLoad uStore
  by_cases hs : (alookup m k').isSome
  · simp only [if_pos hs]
    exact alookup_map_set_ne m k' v k hne
  · simp only [if_neg hs]
    rcases hk : alookup m k with _ | w
    · rw [alookup_append_none _ hk]
      simp [alookup, hne]
    · exact alookup_append_some hk

theorem uLoad_uDelete_self {K V : Type} [DecidableEq K] (m : UMap K V) (k : K) :
    uLoad (uDelete m k) k = none :=
  alookup_filter_self m k

theorem uLoad_uDelete_ne {K V : Type} [DecidableEq K] (m : UMap K V) {k' k : K}
    (hne : k ≠ k') : uLoad (uDelete m k') k = uLoad m k :=
  alookup_filter_ne m k' k hne

theorem oinv_ids_ne {K V : Type} [DecidableEq K] {om : OMap K V} {k k' : K} {e e' : Nat}
    (h : OInv om) (hk : alookup om.idx k = some e) (hk' : alookup om.idx k' = some e')
    (hne : k ≠ k') : e ≠ e' := by
  intro hee
  obtain ⟨w, hw⟩ := oinv_lookup_node h hk
  obtain ⟨w', hw'⟩ := oinv_lookup_node h hk'
  rw [hee] at hw
  have heq : ((e', (k, w)) : Nat × (K × V)) = (e', (k', w')) :=
    List.inj_on_of_nodup_map h.2.1 hw hw' (by simp)
  exact hne (congrArg (fun n => n.2.1) heq)

theorem oLoad_oStore_self {K V : Type} [DecidableEq K] {om : OMap K V} (h : OInv om)
    (k : K) (v : V) : oLoad (oStore om k v) k = some v := by
  rcases he : alookup om.idx k with _ | e
  · have h1 : alookup (om.idx ++ [(k, om.nid)]) k = some om.nid := by
      rw [alookup_append_none _ he]
      simp [alookup]
    have hnid : alookup om.lst om.nid = none := by
      rw [alookup_eq_none]
      intro hm
      rcases List.mem_map.mp hm with ⟨n, hn, hni⟩
      have := h.2.2.2 n hn
      omega
    have h2 : alookup (om.lst ++ [(om.nid, (k, v))]) om.nid = some (k, v) := by
      rw [alookup_append_none _ hnid]
      simp [alookup]
    simp [oLoad, oStore, he, h1, h2]
  · obtain ⟨w, hw⟩ := oinv_lookup_node h he
    have hinv2 := oinv_store h k v
    have hidn : (e, (k, v)) ∈ (oStore om k v).lst := by
      simp only [oStore, he]
      exact List.mem_map.mpr ⟨(e, (k, w)), hw, by simp⟩
    have h2 : alookup (oStore om k v).lst e = some (k, v) :=
      alookup_of_mem_nodup hinv2.2.1 hidn
    have h3 : (oStore om k v).idx = om.idx := by simp [oStore, he]
    simp [oLoad, h3, he, h2]

theorem oLoad_oStore_ne {K V : Type} [DecidableEq K] {om : OMap K V} (h : OInv om)
    {k' k : K} (v : V) (hne : k' ≠ k) : oLoad (oStore om k' v) k = oLoad om k := by
  rcases he : alookup om.idx k' with _ | e'
  · have h1 : alookup (om.idx ++ [(k', om.nid)]) k = alookup om.idx k := by
      rcases hk : alookup om.idx k with _ | e
      · rw [alookup_append_none _ hk]
        simp [alookup, hne]
      · rw [alookup_append_some hk]
    rcases hk : alookup om.idx k with _ | e
    · simp only [oLoad, oStore, he, h1, hk]
    · have hen : e ≠ om.nid := by
        obtain ⟨w, hw⟩ := oinv_lookup_node h hk
        have := h.2.2.2 _ hw
        omega
      have h2 : alookup (om.lst ++ [(om.nid, (k', v))]) e = alookup om.lst e := by
        rcases hl : alookup om.lst e with _ | p
        · rw [alookup_append_none _ hl]
          simp [alookup, Ne.symm hen]
        · rw [alookup_append_some hl]
      simp only [oLoad, oStore, he, h1, hk, h2]
  · rcases hk : alookup om.idx k with _ | e
    · simp only [oLoad, oStore, he, hk]
    · have hee : e ≠ e' := oinv_ids_ne h hk he (Ne.symm hne)
      have h2 := alookup_map_upd_ne om.lst v e e' hee
      simp only [oLoad, oStore, he, hk, h2]

theorem oLoad_oDelete_self {K V : Type} [DecidableEq K] (om : OMap K V) (k : K) :
    oLoad (oDelete om k) k = none := by
  rcases he : alookup om.idx k with _ | e
  · simp [oLoad, oDelete, he]
  · have h1 := alookup_filter_self om.idx k
    simp only [oLoad, oDelete, he, h1]

theorem oLoad_oDelete_ne {K V : Type} [DecidableEq K] {om : OMap K V} (h : OInv om)
    {k' k : K} (hne : k ≠ k') : oLoad (oDelete om k') k = oLoad om k := by
  rcases he : alookup om.idx k' with _ | e'
  · simp [oDelete, he]
  · have h1 := alookup_filter_ne om.idx k' k hne
    rcases hk : alookup om.idx k with _ | e
    · rw [hk] at h1
      simp only [oLoad, oDelete, he, h1, hk]
    · rw [hk] at h1
      have hee : e ≠ e' := oinv_ids_ne h hk he hne
      have h2 := alookup_filter_ne om.lst e' e hee
      simp only [oLoad, oDelete, he, h1, hk, h2]

/-! ### Sequences of mutating operations -/

/-- The mutating operations of the `AbstractMap` interface (primitives
`Store`/`Delete` plus every derived operation that can change the state;
`Load`, `Len`, `Range`, `Keys`, `Values` leave the state unchanged). -/
inductive MOp (K V : Type) : Type
  | store (k : K) (v : V)
  | delete (k : K)
  | clear
  | loadAndDelete (k : K)
  | loadOrStore (k : K) (v : V)
  | swap (k : K) (v : V)
  | compareAndSwap (k : K) (old new : V)
  | compareAndDelete (k : K) (old : V)

/-- State effect of one operation on an `OrderedMap`, dispatching derived
operations through the `DefaultAbstractMap` layer. -/
def oStep {K V : Type} [DecidableEq K] [DecidableEq V] (om : OMap K V) : MOp K V → OMap K V
  | .store k v => oStore om k v
  | .delete k => oDelete om k
  | .clear => dClear (oImpl K V) om
  | .loadAndDelete k => (dLoadAndDelete (oImpl K V) om k).1
  | .loadOrStore k v => (dLoadOrStore (oImpl K V) om k v).1
  | .swap k v => (dSwap (oImpl K V) om k v).1
  | .compareAndSwap k old new => (dCompareAndSwap (oImpl K V) om k old new).1
  | .compareAndDelete k old => (dCompareAndDelete (oImpl K V) om k old).1

/-- Run a sequence of operations on an `OrderedMap` state. -/
def oRunFrom {K V : Type} [DecidableEq K] [DecidableEq V] (om : OMap K V)
    (ops : List (MOp K V)) : OMap K V :=
  ops.foldl oStep om

/-- Run a sequence of operations from `NewOrderedMap`. -/
def oRun {K V : Type} [DecidableEq K] [DecidableEq V] (ops : List (MOp K V)) : OMap K V :=
  oRunFrom oNew ops

/-- State effect of one operation on an `UnorderedMap`. -/
def uStep {K V : Type} [DecidableEq K] [DecidableEq V] (m : UMap K V) : MOp K V → UMap K V
  | .store k v => uStore m k v
  | .delete k => uDelete m k
  | .clear => dClear (uImpl K V) m
  | .loadAndDelete k => (dLoadAndDelete (uImpl K V) m k).1
  | .loadOrStore k v => (dLoadOrStore (uImpl K V) m k v).1
  | .swap k v => (dSwap (uImpl K V) m k v).1
  | .compareAndSwap k old new => (dCompareAndSwap (uImpl K V) m k old new).1
  | .compareAndDelete k old => (dCompareAndDelete (uImpl K V) m k old).1

/-- Run a sequence of operations on an `UnorderedMap` state. -/
def uRunFrom {K V : Type} [DecidableEq K] [DecidableEq V] (m : UMap K V)
    (ops : List (MOp K V)) : UMap K V :=
  ops.foldl uStep m

theorem oinv_foldl_delete {K V : Type} [DecidableEq K] (ks : List K) {om : OMap K V}
    (h : OInv om) : OInv (ks.foldl oDelete om) := by
  induction ks generalizing om with
  | nil => exact h
  | cons k ks ih => exact ih (oinv_delete h k)

theorem oinv_step {K V : Type} [DecidableEq K] [DecidableEq V] {om : OMap K V}
    (h : OInv om) (op : MOp K V) : OInv (oStep om op) := by
  cases op with
  | store k v => exact oinv_store h k v
  | delete k => exact oinv_delete h k
  | clear => exact oinv_foldl_delete _ h
  | loadAndDelete k =>
    rcases hl : oLoad om k with _ | v
    · simpa [oStep, dLoadAndDelete, oImpl, hl] using h
    · simpa [oStep, dLoadAndDelete, oImpl, hl] using oinv_delete h k
  | loadOrStore k v =>
    rcases hl : oLoad om k with _ | w
    · simpa [oStep, dLoadOrStore, oImpl, hl] using oinv_store h k v
    · simpa [oStep, dLoadOrStore, oImpl, hl] using h
  | swap k v =>
    simpa [oStep, dSwap, oImpl] using oinv_store h k v
  | compareAndSwap k old new =>
    rcases hl : oLoad om k with _ | w
    · simpa [oStep, dCompareAndSwap, oImpl, hl] using h
    · by_cases hw : w = old
      · simpa [oStep, dCompareAndSwap, oImpl, hl, hw] using oinv_store h k new
      · simpa [oStep, dCompareAndSwap, oImpl, hl, hw] using h
  | compareAndDelete k old =>
    rcases hl : oLoad om k with _ | w
    · simpa [oStep, dCompareAndDelete, oImpl, hl] using h
    · by_cases hw : w = old
      · simpa [oStep, dCompareAndDelete, oImpl, hl, hw] using oinv_delete h k
      · simpa [oStep, dCompareAndDelete, oImpl, hl, hw] using h

theorem oinv_runFrom {K V : Type} [DecidableEq K] [DecidableEq V] {om : OMap K V}
    (h : OInv om) (ops : List (MOp K V)) : OInv (oRunFrom om ops) := by
  induction ops generalizing om with
  | nil => exact h
  | cons op ops ih => exact ih (oinv_step h op)

theorem oinv_run {K V : Type} [DecidableEq K] [DecidableEq V] (ops : List (MOp K V)) :
    OInv (oRun ops) :=
  oinv_runFrom oInv_new ops

/-! ### Insertion order of the OrderedMap -/

theorem alookup_idx_mem_keys {K V : Type} [DecidableEq K] {om : OMap K V} (h : OInv om)
    (k : K) : (alookup om.idx k).isSome = true ↔ k ∈ oKeys om := by
  rw [alookup_isSome, oKeys_eq_idx_keys h]

theorem map_key_filter {K V : Type} [DecidableEq K] (l : List (Nat × (K × V))) (k : K) :
    (l.filter (fun n => n.2.1 ≠ k)).map (fun n => n.2.1) =
      (l.map (fun n => n.2.1)).filter (fun x => x ≠ k) := by
  induction l with
  | nil => rfl
  | cons n ns ih =>
    simp only [ne_eq, decide_not] at ih ⊢
    by_cases h : n.2.1 = k <;> simp [h, List.filter_cons, ih]

theorem oKeys_oStore_present {K V : Type} [DecidableEq K] {om : OMap K V} {k : K} {e : Nat}
    (he : alookup om.idx k = some e) (v : V) : oKeys (oStore om k v) = oKeys om := by
  simp only [oStore, he, oKeys, List.map_map]
  apply List.map_congr_left
  intro n _
  by_cases hne : n.1 = e <;> simp [hne]

theorem oKeys_oStore_absent {K V : Type} [DecidableEq K] {om : OMap K V} {k : K}
    (he : alookup om.idx k = none) (v : V) : oKeys (oStore om k v) = oKeys om ++ [k] := by
  simp [oStore, he, oKeys]

theorem oKeys_oDelete {K V : Type} [DecidableEq K] {om : OMap K V} (h : OInv om) (k : K) :
    oKeys (oDelete om k) = (oKeys om).filter (fun x => x ≠ k) := by
  rcases he : alookup om.idx k with _ | e
  · have hd : oDelete om k = om := by simp [oDelete, he]
    rw [hd]
    have hk : k ∉ oKeys om := by
      rw [← oKeys_eq_idx_keys h]
      exact (alookup_eq_none _ _).mp he
    symm
    apply List.filter_eq_self.mpr
    intro x hx
    simp only [ne_eq, decide_not, Bool.not_eq_eq_eq_not, Bool.not_true, decide_eq_false_iff_not]
    intro hxk
    exact hk (hxk ▸ hx)
  · have hfk := oDelete_lst_filter_key h he
    have hlst : (oDelete om k).lst = om.lst.filter (fun n => n.2.1 ≠ k) := by
      simp only [oDelete, he]
      exact hfk
    simp only [oKeys, hlst]
    exact map_key_filter om.lst k

theorem oClear_lst_nil {K V : Type} [DecidableEq K] (ks : List K) {om : OMap K V}
    (h : OInv om) (hks : ∀ n ∈ om.lst, n.2.1 ∈ ks) : (ks.foldl oDelete om).lst = [] := by
  induction ks generalizing om with
  | nil =>
    cases hl : om.lst with
    | nil => simpa using hl
    | cons n ns =>
      exact absurd (hks n (by rw [hl]; exact List.mem_cons_self _ _)) (List.not_mem_nil _)
  | cons k ks ih =>
    rw [List.foldl_cons]
    apply ih (oinv_delete h k)
    intro n hn
    rcases he : alookup om.idx k with _ | e
    · have hd : oDelete om k = om := by simp [oDelete, he]
      rw [hd] at hn
      have hne : n.2.1 ≠ k := by
        intro hnk
        have hkm : k ∈ om.idx.map (fun p => p.1) := by
          rw [oKeys_eq_idx_keys h]
          exact List.mem_map.mpr ⟨n, hn, hnk⟩
        exact (alookup_eq_none _ _).mp he hkm
      rcases List.mem_cons.mp (hks n hn) with hc | hc
      · exact absurd hc hne
      · exact hc
    · have hfk := oDelete_lst_filter_key h he
      have hlst : (oDelete om k).lst = om.lst.filter (fun n => n.2.1 ≠ k) := by
        simp only [oDelete, he]
        exact hfk
      rw [hlst] at hn
      rcases List.mem_filter.mp hn with ⟨hmem, hdec⟩
      have hne : n.2.1 ≠ k := by simpa using hdec
      rcases List.mem_cons.mp (hks n hmem) with hc | hc
      · exact absurd hc hne
      · exact hc

theorem oClear_dClear_lst_nil {K V : Type} [DecidableEq K] {om : OMap K V} (h : OInv om) :
    (dClear (oImpl K V) om).lst = [] := by
  apply oClear_lst_nil _ h
  intro n hn
  simp only [oImpl, oRange, List.map_map]
  exact List.mem_map.mpr ⟨n, hn, rfl⟩

theorem oClear_idx_nil {K V : Type} [DecidableEq K] {om : OMap K V} (h : OInv om) :
    (dClear (oImpl K V) om).idx = [] := by
  have h2 : OInv (dClear (oImpl K V) om) := oinv_foldl_delete _ h
  rw [h2.1, oClear_dClear_lst_nil h]
  rfl

/-- Trace alphabet for the insertion-order claim: `Store`, `Delete`, and
`Clear` on an `OrderedMap`. -/
inductive SDOp (K V : Type) : Type
  | store (k : K) (v : V)
  | delete (k : K)
  | clear

/-- One `Store`/`Delete`/`Clear` step on the `OrderedMap`. -/
def sdStep {K V : Type} [DecidableEq K] (om : OMap K V) : SDOp K V → OMap K V
  | .store k v => oStore om k v
  | .delete k => oDelete om k
  | .clear => dClear (oImpl K V) om

/-- Run a `Store`/`Delete`/`Clear` trace from `NewOrderedMap`. -/
def sdRun {K V : Type} [DecidableEq K] (ops : List (SDOp K V)) : OMap K V :=
  ops.foldl sdStep oNew

/-- The specified key order, computed directly from the trace: a `Store` of
a new key appends it at the tail, a `Store` of a present key leaves the
order unchanged, a `Delete` removes the key, `Clear` empties the order. -/
def specStep {K V : Type} [DecidableEq K] (acc : List K) : SDOp K V → List K
  | .store k _ => if k ∈ acc then acc else acc ++ [k]
  | .delete k => acc.filter (fun x => x ≠ k)
  | .clear => []

/-- The specified key order of a whole trace. -/
def specOrder {K V : Type} [DecidableEq K] (ops : List (SDOp K V)) : List K :=
  ops.foldl specStep []

theorem sdinv_step {K V : Type} [DecidableEq K] {om : OMap K V} (h : OInv om)
    (op : SDOp K V) : OInv (sdStep om op) := by
  cases op with
  | store k v => exact oinv_store h k v
  | delete k => exact oinv_delete h k
  | clear => exact oinv_foldl_delete _ h

theorem oKeys_sdStep {K V : Type} [DecidableEq K] {om : OMap K V} (h : OInv om)
    (op : SDOp K V) : oKeys (sdStep om op) = specStep (oKeys om) op := by
  cases op with
  | store k v =>
    rcases he : alookup om.idx k with _ | e
    · have hk : k ∉ oKeys om := by
        rw [← oKeys_eq_idx_keys h]
        exact (alookup_eq_none _ _).mp he
      simp only [sdStep, specStep, if_neg hk]
      exact oKeys_oStore_absent he v
    · have hk : k ∈ oKeys om := by
        rw [← alookup_idx_mem_keys h, he]
        rfl
      simp only [sdStep, specStep, if_pos hk]
      exact oKeys_oStore_present he v
  | delete k =>
    exact oKeys_oDelete h k
  | clear =>
    simp only [sdStep, specStep, oKeys, oClear_dClear_lst_nil h, List.map_nil]

theorem oKeys_foldl_spec {K V : Type} [DecidableEq K] (ops : List (SDOp K V))
    {om : OMap K V} (h : OInv om) :
    oKeys (ops.foldl sdStep om) = ops.foldl specStep (oKeys om) := by
  induction ops generalizing om with
  | nil => rfl
  | cons op ops ih =>
    rw [List.foldl_cons, List.foldl_cons, ← oKeys_sdStep h op]
    exact ih (sdinv_step h op)

/-! ### Correspondence consequences -/

theorem oinv_correspondence {K V : Type} [DecidableEq K] {om : OMap K V} (h : OInv om) :
    (om.idx.map (fun p => p.1)).Nodup ∧ (om.lst.map (fun n => n.1)).Nodup ∧
    (∀ k e, (k, e) ∈ om.idx →
      ∃ w, alookup om.lst e = some (k, w) ∧ oLoad om k = some w) ∧
    (∀ n ∈ om.lst, alookup om.idx n.2.1 = some n.1) ∧
    om.idx.length = om.lst.length := by
  have hnk : (om.idx.map (fun p => p.1)).Nodup := by
    rw [oKeys_eq_idx_keys h]
    exact h.2.2.1
  refine ⟨hnk, h.2.1, ?_, ?_, ?_⟩
  · intro k e hke
    have hm := hke
    rw [h.1] at hm
    rcases List.mem_map.mp hm with ⟨n, hn, hne⟩
    have h1 : n.2.1 = k := congrArg Prod.fst hne
    have h2 : n.1 = e := congrArg Prod.snd hne
    refine ⟨n.2.2, ?_, ?_⟩
    · have hmem : (e, (k, n.2.2)) ∈ om.lst := by
        have hq : n = (e, (k, n.2.2)) := by
          obtain ⟨i, kk, vv⟩ := n
          simp only at h1 h2
          rw [h1, h2]
        rw [← hq]
        exact hn
      exact alookup_of_mem_nodup h.2.1 hmem
    · have hik : alookup om.idx k = some e := alookup_of_mem_nodup hnk hke
      have hmem : (e, (k, n.2.2)) ∈ om.lst := by
        have hq : n = (e, (k, n.2.2)) := by
          obtain ⟨i, kk, vv⟩ := n
          simp only at h1 h2
          rw [h1, h2]
        rw [← hq]
        exact hn
      have hle : alookup om.lst e = some (k, n.2.2) := alookup_of_mem_nodup h.2.1 hmem
      simp [oLoad, hik, hle]
  · intro n hn
    have hm : (n.2.1, n.1) ∈ om.idx := by
      rw [h.1]
      exact List.mem_map.mpr ⟨n, hn, rfl⟩
    exact alookup_of_mem_nodup hnk hm
  · rw [h.1, List.length_map]

/-- C1: for every sequence of `Store`, `Delete` (and `Clear`) operations on
an `OrderedMap` from `NewOrderedMap`, the keys a full `Range` traversal
presents to the visitor are exactly the keys in first-insertion order with
deleted keys excluded: a `Store` of a present key updates in place without
moving it, and a `Store` of a key after it was deleted (or after `Clear`)
appends it at the new tail — i.e. the visited key sequence equals the
specified order function `specOrder` of the trace. -/
theorem orderedMap_range_insertion_order {K V : Type} [DecidableEq K]
    (ops : List (SDOp K V)) :
    (oRange (sdRun ops)).map (fun p => p.1) = specOrder ops := by
  have h1 : (oRange (sdRun ops)).map (fun p => p.1) = oKeys (sdRun ops) := by
    simp only [oRange, oKeys, List.map_map]
    rfl
  rw [h1, sdRun, specOrder, oKeys_foldl_spec ops oInv_new]
  rfl

/-- C2: after any sequence of `Store`, `Delete` and derived operations from
`NewOrderedMap`, the hash index and the linked list are in 1:1
correspondence: index keys and node ids are unique, every index entry
points at exactly one node holding that key and its current value, every
node's key is in the index pointing back at that node, and the index size
equals the list length. -/
theorem orderedMap_index_list_bijection {K V : Type} [DecidableEq K] [DecidableEq V]
    (ops : List (MOp K V)) :
    ((oRun ops).idx.map (fun p => p.1)).Nodup ∧
    ((oRun ops).lst.map (fun n => n.1)).Nodup ∧
    (∀ k e, (k, e) ∈ (oRun ops).idx →
      ∃ w, alookup (oRun ops).lst e = some (k, w) ∧ oLoad (oRun ops) k = some w) ∧
    (∀ n ∈ (oRun ops).lst, alookup (oRun ops).idx n.2.1 = some n.1) ∧
    (oRun ops).idx.length = (oRun ops).lst.length :=
  oinv_correspondence (oinv_run ops)

/-! ### Load after Store survives operations that do not touch the key -/

/-- An operation neither deletes key `k` (by `Delete`, `LoadAndDelete`,
`CompareAndDelete`, or `Clear`) nor re-stores `k`, given that `k` currently
holds `v` (so a `CompareAndSwap`/`CompareAndDelete` on `k` with
`old ≠ v` fails and does not mutate, and a `LoadOrStore` on a present `k`
never stores). -/
def keepsKey {K V : Type} [DecidableEq K] [DecidableEq V] (k : K) (v : V) :
    MOp K V → Bool
  | .store k' _ => k' != k
  | .delete k' => k' != k
  | .clear => false
  | .loadAndDelete k' => k' != k
  | .loadOrStore _ _ => true
  | .swap k' _ => k' != k
  | .compareAndSwap k' old _ => k' != k || old != v
  | .compareAndDelete k' old => k' != k || old != v

theorem uLoad_keep_step {K V : Type} [DecidableEq K] [DecidableEq V] {m : UMap K V}
    {k : K} {v : V} (hl : uLoad m k = some v) {op : MOp K V}
    (hop : keepsKey k v op = true) : uLoad (uStep m op) k = some v := by
  cases op with
  | store k' v' =>
    have hne : k' ≠ k := by simpa [keepsKey] using hop
    simp only [uStep]
    rw [uLoad_uStore_ne m v' hne]
    exact hl
  | delete k' =>
    have hne : k' ≠ k := by simpa [keepsKey] using hop
    simp only [uStep]
    rw [uLoad_uDelete_ne m (Ne.symm hne)]
    exact hl
  | clear => simp [keepsKey] at hop
  | loadAndDelete k' =>
    have hne : k' ≠ k := by simpa [keepsKey] using hop
    rcases hk' : uLoad m k' with _ | w
    · simpa [uStep, dLoadAndDelete, uImpl, hk'] using hl
    · simp only [uStep, dLoadAndDelete, uImpl, hk']
      rw [uLoad_uDelete_ne m (Ne.symm hne)]
      exact hl
  | loadOrStore k' v' =>
    by_cases hkk : k' = k
    · subst hkk
      simp [uStep, dLoadOrStore, uImpl, hl]
    · rcases hk' : uLoad m k' with _ | w
      · simp only [uStep, dLoadOrStore, uImpl, hk']
        rw [uLoad_uStore_ne m v' hkk]
        exact hl
      · simpa [uStep, dLoadOrStore, uImpl, hk'] using hl
  | swap k' v' =>
    have hne : k' ≠ k := by simpa [keepsKey] using hop
    simp only [uStep, dSwap, uImpl]
    rw [uLoad_uStore_ne m v' hne]
    exact hl
  | compareAndSwap k' old nv =>
    rcases hk' : uLoad m k' with _ | w
    · simpa [uStep, dCompareAndSwap, uImpl, hk'] using hl
    · by_cases hw : w = old
      · have hne : k' ≠ k := by
          intro hkk
          subst hkk
          rw [hl] at hk'
          have hvw : v = w := Option.some.inj hk'
          have hov : old ≠ v := by simpa [keepsKey] using hop
          exact hov (hvw.trans hw).symm
        simp only [uStep, dCompareAndSwap, uImpl, hk', if_pos hw]
        rw [uLoad_uStore_ne m nv hne]
        exact hl
      · simpa [uStep, dCompareAndSwap, uImpl, hk', hw] using hl
  | compareAndDelete k' old =>
    rcases hk' : uLoad m k' with _ | w
    · simpa [uStep, dCompareAndDelete, uImpl, hk'] using hl
    · by_cases hw : w = old
      · have hne : k' ≠ k := by
          intro hkk
          subst hkk
          rw [hl] at hk'
          have hvw : v = w := Option.some.inj hk'
          have hov : old ≠ v := by simpa [keepsKey] using hop
          exact hov (hvw.trans hw).symm
        simp only [uStep, dCompareAndDelete, uImpl, hk', if_pos hw]
        rw [uLoad_uDelete_ne m (Ne.symm hne)]
        exact hl
      · simpa [uStep, dCompareAndDelete, uImpl, hk', hw] using hl

theorem uLoad_keep_run {K V : Type} [DecidableEq K] [DecidableEq V] {m : UMap K V}
    {k : K} {v : V} (hl : uLoad m k = some v) (ops : List (MOp K V))
    (hops : ∀ op ∈ ops, keepsKey k v op = true) : uLoad (uRunFrom m ops) k = some v := by
  induction ops generalizing m with
  | nil => exact hl
  | cons op ops ih =>
    exact ih (uLoad_keep_step hl (hops op (List.mem_cons_self _ _)))
      (fun o ho => hops o (List.mem_cons_of_mem _ ho))

theorem oLoad_keep_step {K V : Type} [DecidableEq K] [DecidableEq V] {om : OMap K V}
    (h : OInv om) {k : K} {v : V} (hl : oLoad om k = some v) {op : MOp K V}
    (hop : keepsKey k v op = true) : oLoad (oStep om op) k = some v := by
  cases op with
  | store k' v' =>
    have hne : k' ≠ k := by simpa [keepsKey] using hop
    simp only [oStep]
    rw [oLoad_oStore_ne h v' hne]
    exact hl
  | delete k' =>
    have hne : k' ≠ k := by simpa [keepsKey] using hop
    simp only [oStep]
    rw [oLoad_oDelete_ne h (Ne.symm hne)]
    exact hl
  | clear => simp [keepsKey] at hop
  | loadAndDelete k' =>
    have hne : k' ≠ k := by simpa [keepsKey] using hop
    rcases hk' : oLoad om k' with _ | w
    · simpa [oStep, dLoadAndDelete, oImpl, hk'] using hl
    · simp only [oStep, dLoadAndDelete, oImpl, hk']
      rw [oLoad_oDelete_ne h (Ne.symm hne)]
      exact hl
  | loadOrStore k' v' =>
    by_cases hkk : k' = k
    · subst hkk
      simp [oStep, dLoadOrStore, oImpl, hl]
    · rcases hk' : oLoad om k' with _ | w
      · simp only [oStep, dLoadOrStore, oImpl, hk']
        rw [oLoad_oStore_ne h v' hkk]
        exact hl
      · simpa [oStep, dLoadOrStore, oImpl, hk'] using hl
  | swap k' v' =>
    have hne : k' ≠ k := by simpa [keepsKey] using hop
    simp only [oStep, dSwap, oImpl]
    rw [oLoad_oStore_ne h v' hne]
    exact hl
  | compareAndSwap k' old nv =>
    rcases hk' : oLoad om k' with _ | w
    · simpa [oStep, dCompareAndSwap, oImpl, hk'] using hl
    · by_cases hw : w = old
      · have hne : k' ≠ k := by
          intro hkk
          subst hkk
          rw [hl] at hk'
          have hvw : v = w := Option.some.inj hk'
          have hov : old ≠ v := by simpa [keepsKey] using hop
          exact hov (hvw.trans hw).symm
        simp only [oStep, dCompareAndSwap, oImpl, hk', if_pos hw]
        rw [oLoad_oStore_ne h nv hne]
        exact hl
      · simpa [oStep, dCompareAndSwap, oImpl, hk', hw] using hl
  | compareAndDelete k' old =>
    rcases hk' : oLoad om k' with _ | w
    · simpa [oStep, dCompareAndDelete, oImpl, hk'] using hl
    · by_cases hw : w = old
      · have hne : k' ≠ k := by
          intro hkk
          subst hkk
          rw [hl] at hk'
          have hvw : v = w := Option.some.inj hk'
          have hov : old ≠ v := by simpa [keepsKey] using hop
          exact hov (hvw.trans hw).symm
        simp only [oStep, dCompareAndDelete, oImpl, hk', if_pos hw]
        rw [oLoad_oDelete_ne h (Ne.symm hne)]
        exact hl
      · simpa [oStep, dCompareAndDelete, oImpl, hk', hw] using hl

theorem oLoad_keep_run {K V : Type} [DecidableEq K] [DecidableEq V] {om : OMap K V}
    (h : OInv om) {k : K} {v : V} (hl : oLoad om k = some v) (ops : List (MOp K V))
    (hops : ∀ op ∈ ops, keepsKey k v op = true) : oLoad (oRunFrom om ops) k = some v := by
  induction ops generalizing om with
  | nil => exact hl
  | cons op ops ih =>
    exact ih (oinv_step h op) (oLoad_keep_step h hl (hops op (List.mem_cons_self _ _)))
      (fun o ho => hops o (List.mem_cons_of_mem _ ho))

/-- C3: on both map backends, after `Store(k, v)` every subsequent sequence
of operations that neither deletes `k` (by `Delete`, `LoadAndDelete`,
`CompareAndDelete` or `Clear`) nor re-stores `k` leaves `Load(k)` returning
`(v, true)`. -/
theorem load_after_store_until_removed {K V : Type} [DecidableEq K] [DecidableEq V]
    (k : K) (v : V) (ops : List (MOp K V))
    (hops : ∀ op ∈ ops, keepsKey k v op = true) :
    (∀ m : UMap K V, uLoad (uRunFrom (uStore m k v) ops) k = some v) ∧
    (∀ om : OMap K V, OInv om → oLoad (oRunFrom (oStore om k v) ops) k = some v) := by
  constructor
  · intro m
    exact uLoad_keep_run (uLoad_uStore_self m k v) ops hops
  · intro om h
    exact oLoad_keep_run (oinv_store h k v) (oLoad_oStore_self h k v) ops hops

/-- Witness for C3 at a concrete trace: delete of another key, a failing
`CompareAndSwap` on the key itself, and a store to a third key. -/
theorem load_after_store_until_removed_witness :
    (∀ op ∈ ([MOp.delete 2, MOp.compareAndSwap 1 7 9,
        MOp.store 3 5] : List (MOp Nat Nat)), keepsKey 1 42 op = true) ∧
    uLoad (uRunFrom (uStore [] 1 42)
      [MOp.delete 2, MOp.compareAndSwap 1 7 9, MOp.store 3 5]) 1 = some 42 ∧
    OInv (oNew : OMap Nat Nat) ∧
    oLoad (oRunFrom (oStore oNew 1 42)
      [MOp.delete 2, MOp.compareAndSwap 1 7 9, MOp.store 3 5]) 1 = some 42 :=
  ⟨by decide,
   (load_after_store_until_removed 1 42 _ (by decide)).1 [],
   oInv_new,
   (load_after_store_until_removed 1 42 _ (by decide)).2 oNew oInv_new⟩

/-! ### CompareAndSwap / CompareAndDelete -/

/-- C4: on both backends, `CompareAndSwap(k, old, new)` succeeds (stores
`new`, returns true) exactly when `k` is present with current value equal
to `old`, and otherwise returns false with the state completely unchanged;
likewise `CompareAndDelete(k, old)` deletes exactly under the same
condition and otherwise mutates nothing. An absent key never swaps or
deletes. -/
theorem compareAndSwapDelete_spec {K V : Type} [DecidableEq K] [DecidableEq V] :
    (∀ (m : UMap K V) (k : K) (old new : V),
      ((dCompareAndSwap (uImpl K V) m k old new).2 = true ↔ uLoad m k = some old) ∧
      (uLoad m k = some old →
        (dCompareAndSwap (uImpl K V) m k old new).1 = uStore m k new ∧
        uLoad (dCompareAndSwap (uImpl K V) m k old new).1 k = some new) ∧
      (uLoad m k ≠ some old → dCompareAndSwap (uImpl K V) m k old new = (m, false)) ∧
      ((dCompareAndDelete (uImpl K V) m k old).2 = true ↔ uLoad m k = some old) ∧
      (uLoad m k = some old →
        (dCompareAndDelete (uImpl K V) m k old).1 = uDelete m k ∧
        uLoad (dCompareAndDelete (uImpl K V) m k old).1 k = none) ∧
      (uLoad m k ≠ some old → dCompareAndDelete (uImpl K V) m k old = (m, false))) ∧
    (∀ om : OMap K V, OInv om → ∀ (k : K) (old new : V),
      ((dCompareAndSwap (oImpl K V) om k old new).2 = true ↔ oLoad om k = some old) ∧
      (oLoad om k = some old →
        (dCompareAndSwap (oImpl K V) om k old new).1 = oStore om k new ∧
        oLoad (dCompareAndSwap (oImpl K V) om k old new).1 k = some new) ∧
      (oLoad om k ≠ some old → dCompareAndSwap (oImpl K V) om k old new = (om, false)) ∧
      ((dCompareAndDelete (oImpl K V) om k old).2 = true ↔ oLoad om k = some old) ∧
      (oLoad om k = some old →
        (dCompareAndDelete (oImpl K V) om k old).1 = oDelete om k ∧
        oLoad (dCompareAndDelete (oImpl K V) om k old).1 k = none) ∧
      (oLoad om k ≠ some old → dCompareAndDelete (oImpl K V) om k old = (om, false))) := by
  constructor
  · intro m k old new
    rcases hl : uLoad m k with _ | w
    · refine ⟨by simp [dCompareAndSwap, uImpl, hl], ?_, ?_, by simp [dCompareAndDelete, uImpl, hl], ?_, ?_⟩
      · intro hc
        exact Option.noConfusion hc
      · intro _
        simp [dCompareAndSwap, uImpl, hl]
      · intro hc
        exact Option.noConfusion hc
      · intro _
        simp [dCompareAndDelete, uImpl, hl]
    · by_cases hw : w = old
      · subst hw
        refine ⟨by simp [dCompareAndSwap, uImpl, hl], ?_, ?_, by simp [dCompareAndDelete, uImpl, hl], ?_, ?_⟩
        · intro _
          refine ⟨by simp [dCompareAndSwap, uImpl, hl], ?_⟩
          have hs : (dCompareAndSwap (uImpl K V) m k w new).1 = uStore m k new := by
            simp [dCompareAndSwap, uImpl, hl]
          rw [hs]
          exact uLoad_uStore_self m k new
        · intro hc
          exact absurd rfl hc
        · intro _
          refine ⟨by simp [dCompareAndDelete, uImpl, hl], ?_⟩
          have hs : (dCompareAndDelete (uImpl K V) m k w).1 = uDelete m k := by
            simp [dCompareAndDelete, uImpl, hl]
          rw [hs]
          exact uLoad_uDelete_self m k
        · intro hc
          exact absurd rfl hc
      · refine ⟨by simp [dCompareAndSwap, uImpl, hl, hw], ?_, ?_, by simp [dCompareAndDelete, uImpl, hl, hw], ?_, ?_⟩
        · intro hc
          exact absurd (Option.some.inj hc) hw
        · intro _
          simp [dCompareAndSwap, uImpl, hl, hw]
        · intro hc
          exact absurd (Option.some.inj hc) hw
        · intro _
          simp [dCompareAndDelete, uImpl, hl, hw]
  · intro om h k old new
    rcases hl : oLoad om k with _ | w
    · refine ⟨by simp [dCompareAndSwap, oImpl, hl], ?_, ?_, by simp [dCompareAndDelete, oImpl, hl], ?_, ?_⟩
      · intro hc
        exact Option.noConfusion hc
      · intro _
        simp [dCompareAndSwap, oImpl, hl]
      · intro hc
        exact Option.noConfusion hc
      · intro _
        simp [dCompareAndDelete, oImpl, hl]
    · by_cases hw : w = old
      · subst hw
        refine ⟨by simp [dCompareAndSwap, oImpl, hl], ?_, ?_, by simp [dCompareAndDelete, oImpl, hl], ?_, ?_⟩
        · intro _
          refine ⟨by simp [dCompareAndSwap, oImpl, hl], ?_⟩
          have hs : (dCompareAndSwap (oImpl K V) om k w new).1 = oStore om k new := by
            simp [dCompareAndSwap, oImpl, hl]
          rw [hs]
          exact oLoad_oStore_self h k new
        · intro hc
          exact absurd rfl hc
        · intro _
          refine ⟨by simp [dCompareAndDelete, oImpl, hl], ?_⟩
          have hs : (dCompareAndDelete (oImpl K V) om k w).1 = oDelete om k := by
            simp [dCompareAndDelete, oImpl, hl]
          rw [hs]
          exact oLoad_oDelete_self om k
        · intro hc
          exact absurd rfl hc
      · refine ⟨by simp [dCompareAndSwap, oImpl, hl, hw], ?_, ?_, by simp [dCompareAndDelete, oImpl, hl, hw], ?_, ?_⟩
        · intro hc
          exact absurd (Option.some.inj hc) hw
        · intro _
          simp [dCompareAndSwap, oImpl, hl, hw]
        · intro hc
          exact absurd (Option.some.inj hc) hw
        · intro _
          simp [dCompareAndDelete, oImpl, hl, hw]

/-- Witness for C4: a successful swap on a present key with matching value,
and a failing delete on an absent key of a fresh ordered map. -/
theorem compareAndSwapDelete_spec_witness :
    uLoad [(1, 2)] 1 = some 2 ∧
    (dCompareAndSwap (uImpl Nat Nat) [(1, 2)] 1 2 9).1 = uStore [(1, 2)] 1 9 ∧
    OInv (oNew : OMap Nat Nat) ∧
    oLoad (oNew : OMap Nat Nat) 5 ≠ some 0 ∧
    dCompareAndDelete (oImpl Nat Nat) oNew 5 0 = (oNew, false) :=
  ⟨by decide,
   ((compareAndSwapDelete_spec.1 [(1, 2)] 1 2 9).2.1 (by decide)).1,
   oInv_new,
   by decide,
   ((compareAndSwapDelete_spec.2 oNew oInv_new 5 0 0).2.2.2.2.2 (by decide))⟩

/-! ### LoadOrStore -/

/-- C5: on both backends, `LoadOrStore(k, v)` on a present key returns the
stored value with `loaded = true` and leaves the state unchanged, and on an
absent key stores `v` and returns `(v, false)`; hence two successive calls
with different values keep the first value, returning `(v1, false)` then
`(v1, true)` with no further state change. -/
theorem loadOrStore_spec {K V : Type} [DecidableEq K] :
    (∀ (m : UMap K V) (k : K) (v : V),
      (∀ w, uLoad m k = some w → dLoadOrStore (uImpl K V) m k v = (m, (w, true))) ∧
      (uLoad m k = none →
        dLoadOrStore (uImpl K V) m k v = (uStore m k v, (v, false)) ∧
        uLoad (dLoadOrStore (uImpl K V) m k v).1 k = some v)) ∧
    (∀ (m : UMap K V) (k : K) (v1 v2 : V), uLoad m k = none →
      (dLoadOrStore (uImpl K V) m k v1).2 = (v1, false) ∧
      dLoadOrStore (uImpl K V) (dLoadOrStore (uImpl K V) m k v1).1 k v2 =
        ((dLoadOrStore (uImpl K V) m k v1).1, (v1, true))) ∧
    (∀ om : OMap K V, OInv om → ∀ (k : K) (v : V),
      (∀ w, oLoad om k = some w → dLoadOrStore (oImpl K V) om k v = (om, (w, true))) ∧
      (oLoad om k = none →
        dLoadOrStore (oImpl K V) om k v = (oStore om k v, (v, false)) ∧
        oLoad (dLoadOrStore (oImpl K V) om k v).1 k = some v)) ∧
    (∀ om : OMap K V, OInv om → ∀ (k : K) (v1 v2 : V), oLoad om k = none →
      (dLoadOrStore (oImpl K V) om k v1).2 = (v1, false) ∧
      dLoadOrStore (oImpl K V) (dLoadOrStore (oImpl K V) om k v1).1 k v2 =
        ((dLoadOrStore (oImpl K V) om k v1).1, (v1, true))) := by
  refine ⟨?_, ?_, ?_, ?_⟩
  · intro m k v
    constructor
    · intro w hw
      simp [dLoadOrStore, uImpl, hw]
    · intro hn
      refine ⟨by simp [dLoadOrStore, uImpl, hn], ?_⟩
      have hs : (dLoadOrStore (uImpl K V) m k v).1 = uStore m k v := by
        simp [dLoadOrStore, uImpl, hn]
      rw [hs]
      exact uLoad_uStore_self m k v
  · intro m k v1 v2 hn
    have hs : (dLoadOrStore (uImpl K V) m k v1).1 = uStore m k v1 := by
      simp [dLoadOrStore, uImpl, hn]
    refine ⟨by simp [dLoadOrStore, uImpl, hn], ?_⟩
    have hl2 : uLoad (dLoadOrStore (uImpl K V) m k v1).1 k = some v1 := by
      rw [hs]
      exact uLoad_uStore_self m k v1
    have hgen : ∀ t : UMap K V, uLoad t k = some v1 →
        dLoadOrStore (uImpl K V) t k v2 = (t, (v1, true)) := by
      intro t ht
      simp [dLoadOrStore, uImpl, ht]
    exact hgen _ hl2
  · intro om h k v
    constructor
    · intro w hw
      simp [dLoadOrStore, oImpl, hw]
    · intro hn
      refine ⟨by simp [dLoadOrStore, oImpl, hn], ?_⟩
      have hs : (dLoadOrStore (oImpl K V) om k v).1 = oStore om k v := by
        simp [dLoadOrStore, oImpl, hn]
      rw [hs]
      exact oLoad_oStore_self h k v
  · intro om h k v1 v2 hn
    have hs : (dLoadOrStore (oImpl K V) om k v1).1 = oStore om k v1 := by
      simp [dLoadOrStore, oImpl, hn]
    refine ⟨by simp [dLoadOrStore, oImpl, hn], ?_⟩
    have hl2 : oLoad (dLoadOrStore (oImpl K V) om k v1).1 k = some v1 := by
      rw [hs]
      exact oLoad_oStore_self h k v1
    have hgen : ∀ t : OMap K V, oLoad t k = some v1 →
        dLoadOrStore (oImpl K V) t k v2 = (t, (v1, true)) := by
      intro t ht
      simp [dLoadOrStore, oImpl, ht]
    exact hgen _ hl2

/-- Witness for C5: two successive `LoadOrStore` calls with different
values on a fresh key of each backend. -/
theorem loadOrStore_spec_witness :
    uLoad ([] : UMap Nat Nat) 4 = none ∧
    dLoadOrStore (uImpl Nat Nat) (dLoadOrStore (uImpl Nat Nat) [] 4 10).1 4 20 =
      ((dLoadOrStore (uImpl Nat Nat) [] 4 10).1, (10, true)) ∧
    OInv (oNew : OMap Nat Nat) ∧
    oLoad (oNew : OMap Nat Nat) 4 = none ∧
    (dLoadOrStore (oImpl Nat Nat) oNew 4 10).2 = (10, false) :=
  ⟨by decide,
   ((loadOrStore_spec.2.1 [] 4 10 20 (by decide)).2),
   oInv_new,
   by decide,
   ((loadOrStore_spec.2.2.2 oNew oInv_new 4 10 20 (by decide)).1)⟩

/-! ### Clear -/

theorem uClear_eq_nil {K V : Type} [DecidableEq K] (ks : List K) (m : UMap K V)
    (hks : ∀ p ∈ m, p.1 ∈ ks) : ks.foldl uDelete m = [] := by
  induction ks generalizing m with
  | nil =>
    cases hm : m with
    | nil => rfl
    | cons p ps =>
      exact absurd (hks p (by rw [hm]; exact List.mem_cons_self _ _)) (List.not_mem_nil _)
  | cons k ks ih =>
    rw [List.foldl_cons]
    apply ih
    intro p hp
    have hmem : p ∈ m := List.mem_of_mem_filter hp
    have hne : p.1 ≠ k := by
      have := List.of_mem_filter hp
      simpa using this
    rcases List.mem_cons.mp (hks p hmem) with hc | hc
    · exact absurd hc hne
    · exact hc

theorem oImpl_range_eq {K V : Type} [DecidableEq K] : (oImpl K V).range = oRange :=
  rfl

theorem dClear_uImpl_nil {K V : Type} [DecidableEq K] (m : UMap K V) :
    dClear (uImpl K V) m = [] := by
  apply uClear_eq_nil
  intro p hp
  exact List.mem_map.mpr ⟨p, hp, rfl⟩

/-- C6: `Clear` (one `Range` pass collecting the keys, then a `Delete` of
each collected key) empties both backends: afterwards `Len` is `0` (both
the draining default and the O(1) override), `Load` of every key reports
not-found, and `Range`/`Keys`/`Values` invoke their visitor zero times. -/
theorem clear_spec {K V : Type} [DecidableEq K] (f : K → V → Bool) (g : K → Bool)
    (hv : V → Bool) :
    (∀ m : UMap K V,
      dClear (uImpl K V) m = [] ∧
      uLen (dClear (uImpl K V) m) = 0 ∧
      dLen (uImpl K V) (dClear (uImpl K V) m) = 0 ∧
      (∀ k, uLoad (dClear (uImpl K V) m) k = none) ∧
      runVisit f (uRange (dClear (uImpl K V) m)) = 0 ∧
      dKeysCount (uImpl K V) (dClear (uImpl K V) m) g = 0 ∧
      dValuesCount (uImpl K V) (dClear (uImpl K V) m) hv = 0) ∧
    (∀ om : OMap K V, OInv om →
      (dClear (oImpl K V) om).lst = [] ∧
      (dClear (oImpl K V) om).idx = [] ∧
      oLen (dClear (oImpl K V) om) = 0 ∧
      dLen (oImpl K V) (dClear (oImpl K V) om) = 0 ∧
      (∀ k, oLoad (dClear (oImpl K V) om) k = none) ∧
      runVisit f (oRange (dClear (oImpl K V) om)) = 0 ∧
      dKeysCount (oImpl K V) (dClear (oImpl K V) om) g = 0 ∧
      dValuesCount (oImpl K V) (dClear (oImpl K V) om) hv = 0) := by
  constructor
  · intro m
    have hm := dClear_uImpl_nil (K := K) (V := V) m
    rw [hm]
    refine ⟨rfl, rfl, rfl, ?_, rfl, rfl, rfl⟩
    intro k
    rfl
  · intro om h
    have h1 := oClear_dClear_lst_nil h
    have h2 := oClear_idx_nil h
    have hr : oRange (dClear (oImpl K V) om) = [] := by
      simp [oRange, h1]
    refine ⟨h1, h2, ?_, ?_, ?_, ?_, ?_, ?_⟩
    · simp [oLen, h2]
    · simp [dLen, oImpl_range_eq, hr]
    · intro k
      simp [oLoad, h2, alookup]
    · simp [hr, runVisit]
    · simp [dKeysCount, oImpl_range_eq, hr, runVisit]
    · simp [dValuesCount, oImpl_range_eq, hr, runVisit]

/-- Witness for C6: clear a two-entry ordered map built by two stores, and
a two-entry unordered map. -/
theorem clear_spec_witness :
    OInv (oStore (oStore oNew 1 5) 2 6 : OMap Nat Nat) ∧
    oLen (dClear (oImpl Nat Nat) (oStore (oStore oNew 1 5) 2 6)) = 0 ∧
    uLen (dClear (uImpl Nat Nat) [(1, 5), (2, 6)]) = 0 :=
  ⟨oinv_store (oinv_store oInv_new 1 5) 2 6,
   ((clear_spec (fun _ _ => true) (fun _ => true) (fun _ => true)).2 _
      (oinv_store (oinv_store oInv_new 1 5) 2 6)).2.2.1,
   ((clear_spec (fun _ _ => true) (fun _ => true) (fun _ => true)).1 [(1, 5), (2, 6)]).2.1⟩

/-! ### Range visitor discipline -/

/-- C7: on an empty map `Range` (and `Keys`/`Values`) never invokes the
visitor, and on any map a visitor returning false on its first invocation
is invoked exactly once, regardless of the map's size. -/
theorem range_visit_spec {K V : Type} [DecidableEq K] (f : K → V → Bool) (g : K → Bool)
    (hv : V → Bool) :
    runVisit f (uRange ([] : UMap K V)) = 0 ∧
    (∀ om : OMap K V, om.lst = [] → runVisit f (oRange om) = 0) ∧
    (∀ (m : UMap K V) p rest, uRange m = p :: rest → f p.1 p.2 = false →
      runVisit f (uRange m) = 1) ∧
    (∀ (om : OMap K V) p rest, oRange om = p :: rest → f p.1 p.2 = false →
      runVisit f (oRange om) = 1) ∧
    dKeysCount (uImpl K V) ([] : UMap K V) g = 0 ∧
    dValuesCount (uImpl K V) ([] : UMap K V) hv = 0 ∧
    (∀ om : OMap K V, om.lst = [] →
      dKeysCount (oImpl K V) om g = 0 ∧ dValuesCount (oImpl K V) om hv = 0) := by
  refine ⟨rfl, ?_, ?_, ?_, rfl, rfl, ?_⟩
  · intro om hl
    simp [oRange, hl, runVisit]
  · intro m p rest hm hf
    rw [hm]
    simp [runVisit, hf]
  · intro om p rest hm hf
    rw [hm]
    simp [runVisit, hf]
  · intro om hl
    constructor
    · simp [dKeysCount, oImpl_range_eq, oRange, hl, runVisit]
    · simp [dValuesCount, oImpl_range_eq, oRange, hl, runVisit]

/-- Witness for C7: an always-false visitor on a two-entry unordered map is
invoked exactly once. -/
theorem range_visit_spec_witness :
    uRange [(1, 2), (3, 4)] = (1, 2) :: [(3, 4)] ∧
    (fun (_ : Nat) (_ : Nat) => false) 1 2 = false ∧
    runVisit (fun (_ : Nat) (_ : Nat) => false) (uRange [(1, 2), (3, 4)]) = 1 :=
  ⟨rfl, rfl,
   (range_visit_spec (fun _ _ => false) (fun _ => true) (fun _ => true)).2.2.1
     [(1, 2), (3, 4)] (1, 2) [(3, 4)] rfl rfl⟩

/-! ### Key uniqueness of the unordered map -/

/-- The backing Go hash map of `UnorderedMap` holds each key at most once;
in the association-list model this is uniqueness of the stored keys. -/
def UNodupKeys {K V : Type} (m : UMap K V) : Prop :=
  (m.map (fun p => p.1)).Nodup

theorem uStore_keys_present {K V : Type} [DecidableEq K] {m : UMap K V} {k : K}
    (hs : (alookup m k).isSome = true) (v : V) :
    (uStore m k v).map (fun p => p.1) = m.map (fun p => p.1) := by
  simp only [uStore, if_pos hs, List.map_map]
  apply List.map_congr_left
  intro p _
  by_cases hp : p.1 = k <;> simp [hp]

theorem uStore_keys_absent {K V : Type} [DecidableEq K] {m : UMap K V} {k : K}
    (hs : ¬(alookup m k).isSome = true) (v : V) :
    (uStore m k v).map (fun p => p.1) = m.map (fun p => p.1) ++ [k] := by
  simp [uStore, hs]

theorem uNodup_store {K V : Type} [DecidableEq K] {m : UMap K V} (h : UNodupKeys m)
    (k : K) (v : V) : UNodupKeys (uStore m k v) := by
  by_cases hs : (alookup m k).isSome = true
  · unfold UNodupKeys
    rw [uStore_keys_present hs v]
    exact h
  · unfold UNodupKeys
    rw [uStore_keys_absent hs v, List.nodup_append]
    refine ⟨h, by simp, ?_⟩
    intro x hx hx2
    simp only [List.map_cons, List.map_nil, List.mem_cons, List.not_mem_nil, or_false] at hx2
    subst hx2
    have : (alookup m x).isSome = true := (alookup_isSome m x).mpr hx
    exact hs this

theorem uNodup_delete {K V : Type} [DecidableEq K] {m : UMap K V} (h : UNodupKeys m)
    (k : K) : UNodupKeys (uDelete m k) :=
  List.Nodup.sublist (List.Sublist.map _ (List.filter_sublist _)) h

theorem uNodup_foldl_delete {K V : Type} [DecidableEq K] (ks : List K) {m : UMap K V}
    (h : UNodupKeys m) : UNodupKeys (ks.foldl uDelete m) := by
  induction ks generalizing m with
  | nil => exact h
  | cons k ks ih => exact ih (uNodup_delete h k)

theorem uNodup_step {K V : Type} [DecidableEq K] [DecidableEq V] {m : UMap K V}
    (h : UNodupKeys m) (op : MOp K V) : UNodupKeys (uStep m op) := by
  cases op with
  | store k v => exact uNodup_store h k v
  | delete k => exact uNodup_delete h k
  | clear => exact uNodup_foldl_delete _ h
  | loadAndDelete k =>
    rcases hl : uLoad m k with _ | w
    · simpa [uStep, dLoadAndDelete, uImpl, hl] using h
    · simpa [uStep, dLoadAndDelete, uImpl, hl] using uNodup_delete h k
  | loadOrStore k v =>
    rcases hl : uLoad m k with _ | w
    · simpa [uStep, dLoadOrStore, uImpl, hl] using uNodup_store h k v
    · simpa [uStep, dLoadOrStore, uImpl, hl] using h
  | swap k v =>
    simpa [uStep, dSwap, uImpl] using uNodup_store h k v
  | compareAndSwap k old new =>
    rcases hl : uLoad m k with _ | w
    · simpa [uStep, dCompareAndSwap, uImpl, hl] using h
    · by_cases hw : w = old
      · simpa [uStep, dCompareAndSwap, uImpl, hl, hw] using uNodup_store h k new
      · simpa [uStep, dCompareAndSwap, uImpl, hl, hw] using h
  | compareAndDelete k old =>
    rcases hl : uLoad m k with _ | w
    · simpa [uStep, dCompareAndDelete, uImpl, hl] using h
    · by_cases hw : w = old
      · simpa [uStep, dCompareAndDelete, uImpl, hl, hw] using uNodup_delete h k
      · simpa [uStep, dCompareAndDelete, uImpl, hl, hw] using h

theorem uNodup_run {K V : Type} [DecidableEq K] [DecidableEq V] (ops : List (MOp K V)) :
    UNodupKeys (uRunFrom [] ops) := by
  have hgen : ∀ (ops : List (MOp K V)) (m : UMap K V), UNodupKeys m →
      UNodupKeys (uRunFrom m ops) := by
    intro ops
    induction ops with
    | nil => exact fun m h => h
    | cons op ops ih => exact fun m h => ih (uStep m op) (uNodup_step h op)
  exact hgen ops [] List.nodup_nil

theorem oLen_keys_of_inv {K V : Type} [DecidableEq K] {om : OMap K V} (h : OInv om) :
    dLen (oImpl K V) om = oLen om ∧
    oLen om = ((oRange om).map (fun p => p.1)).length ∧
    ((oRange om).map (fun p => p.1)).Nodup ∧
    (∀ k, k ∈ (oRange om).map (fun p => p.1) ↔ (oLoad om k).isSome = true) := by
  have hk : (oRange om).map (fun p => p.1) = oKeys om := by
    simp only [oRange, oKeys, List.map_map]
    rfl
  refine ⟨?_, ?_, ?_, ?_⟩
  · simp [dLen, oImpl_range_eq, oRange, oLen, h.1]
  · rw [hk]
    simp [oLen, oKeys, h.1]
  · rw [hk]
    exact h.2.2.1
  · intro k
    rw [hk]
    constructor
    · intro hm
      have hsome := (alookup_idx_mem_keys h k).mpr hm
      rcases Option.isSome_iff_exists.mp hsome with ⟨e, he⟩
      obtain ⟨w, hw⟩ := oinv_lookup_node h he
      have hle : alookup om.lst e = some (k, w) := alookup_of_mem_nodup h.2.1 hw
      simp [oLoad, he, hle]
    · intro hs
      rcases he : alookup om.idx k with _ | e
      · rw [oLoad, he] at hs
        simp at hs
      · exact (alookup_idx_mem_keys h k).mp (by rw [he]; rfl)

/-- C8: after any operation sequence on either backend, the draining
default `Len` equals the O(1) override, and this common value is the
number of distinct keys currently present: the keys visible to `Range`
are duplicate-free and are exactly the loadable keys. -/
theorem len_counts_distinct_keys {K V : Type} [DecidableEq K] [DecidableEq V]
    (ops : List (MOp K V)) :
    (dLen (uImpl K V) (uRunFrom [] ops) = uLen (uRunFrom [] ops) ∧
     uLen (uRunFrom [] ops) = ((uRange (uRunFrom [] ops)).map (fun p => p.1)).length ∧
     ((uRange (uRunFrom [] ops)).map (fun p => p.1)).Nodup ∧
     (∀ k, k ∈ (uRange (uRunFrom [] ops)).map (fun p => p.1) ↔
       (uLoad (uRunFrom [] ops) k).isSome = true)) ∧
    (dLen (oImpl K V) (oRun ops) = oLen (oRun ops) ∧
     oLen (oRun ops) = ((oRange (oRun ops)).map (fun p => p.1)).length ∧
     ((oRange (oRun ops)).map (fun p => p.1)).Nodup ∧
     (∀ k, k ∈ (oRange (oRun ops)).map (fun p => p.1) ↔
       (oLoad (oRun ops) k).isSome = true)) := by
  constructor
  · refine ⟨rfl, by simp [uLen, uRange], uNodup_run ops, ?_⟩
    intro k
    exact (alookup_isSome _ k).symm
  · exact oLen_keys_of_inv (oinv_run ops)

/-! ### Swap -/

/-- C9: `Swap(k, v)` returns the previous binding of `k` (`loaded = true`
exactly when a prior value existed, the comma-ok `none` standing for the
type's default value with `loaded = false`), and in both cases
unconditionally stores `v`, so `Load(k)` afterwards returns `(v, true)`
while all other keys are untouched. -/
theorem swap_spec {K V : Type} [DecidableEq K] :
    (∀ (m : UMap K V) (k : K) (v : V),
      (dSwap (uImpl K V) m k v).2 = uLoad m k ∧
      (dSwap (uImpl K V) m k v).1 = uStore m k v ∧
      uLoad (dSwap (uImpl K V) m k v).1 k = some v ∧
      (∀ k2, k2 ≠ k → uLoad (dSwap (uImpl K V) m k v).1 k2 = uLoad m k2)) ∧
    (∀ om : OMap K V, OInv om → ∀ (k : K) (v : V),
      (dSwap (oImpl K V) om k v).2 = oLoad om k ∧
      (dSwap (oImpl K V) om k v).1 = oStore om k v ∧
      oLoad (dSwap (oImpl K V) om k v).1 k = some v ∧
      (∀ k2, k2 ≠ k → oLoad (dSwap (oImpl K V) om k v).1 k2 = oLoad om k2)) := by
  constructor
  · intro m k v
    refine ⟨rfl, rfl, uLoad_uStore_self m k v, ?_⟩
    intro k2 h2
    exact uLoad_uStore_ne m v (Ne.symm h2)
  · intro om h k v
    refine ⟨rfl, rfl, oLoad_oStore_self h k v, ?_⟩
    intro k2 h2
    exact oLoad_oStore_ne h v (Ne.symm h2)

/-- Witness for C9: swap on a present key of each backend. -/
theorem swap_spec_witness :
    OInv (oStore oNew 1 5 : OMap Nat Nat) ∧
    oLoad (dSwap (oImpl Nat Nat) (oStore oNew 1 5) 1 7).1 1 = some 7 ∧
    (dSwap (uImpl Nat Nat) [(1, 5)] 1 7).2 = uLoad [(1, 5)] 1 :=
  ⟨oinv_store oInv_new 1 5,
   (swap_spec.2 (oStore oNew 1 5) (oinv_store oInv_new 1 5) 1 7).2.2.1,
   (swap_spec.1 [(1, 5)] 1 7).1⟩

/-! ### The panic stubs and their unreachability behind a concrete backend -/

/-- Primitives as seen through the `DefaultAbstractMap` dispatch, where a
primitive may be the "not implemented" panic stub: an outer `none` models
the fatal abort. -/
structure PMapImpl (S K V : Type) : Type where
  load : S → K → Option (Option V)
  store : S → K → V → Option S
  delete : S → K → Option S
  range : S → Option (List (K × V))

/-- The bare `DefaultAbstractMap` scaffold with no backend wired in: its
`Load`/`Delete`/`Range` methods are `panic("not implemented")` stubs, and
it supplies no `Store` at all. -/
def pStub (S K V : Type) : PMapImpl S K V :=
  ⟨fun _ _ => none, fun _ _ _ => none, fun _ _ => none, fun _ => none⟩

/-- A concrete backend's total primitives, seen through the dispatch. -/
def pLift {S K V : Type} (M : MapImpl S K V) : PMapImpl S K V :=
  ⟨fun s k => some (M.load s k), fun s k v => some (M.store s k v),
   fun s k => some (M.delete s k), fun s => some (M.range s)⟩

/-- The `Delete` loop of `Clear`, propagating a panic. -/
def pDeleteAll {S K V : Type} (M : PMapImpl S K V) : List K → S → Option S
  | [], s => some s
  | k :: ks, s =>
    match M.delete s k with
    | none => none
    | some t => pDeleteAll M ks t

/-- `Clear` through possibly-panicking primitives. -/
def pClear {S K V : Type} (M : PMapImpl S K V) (s : S) : Option S :=
  match M.range s with
  | none => none
  | some ps => pDeleteAll M (ps.map (fun p => p.1)) s

/-- `Len` through possibly-panicking primitives. -/
def pLen {S K V : Type} (M : PMapImpl S K V) (s : S) : Option Nat :=
  match M.range s with
  | none => none
  | some ps => some ps.length

/-- `LoadAndDelete` through possibly-panicking primitives. -/
def pLoadAndDelete {S K V : Type} (M : PMapImpl S K V) (s : S) (k : K) :
    Option (S × Option V) :=
  match M.load s k with
  | none => none
  | some none => some (s, none)
  | some (some v) =>
    match M.delete s k with
    | none => none
    | some t => some (t, some v)

/-- `LoadOrStore` through possibly-panicking primitives. -/
def pLoadOrStore {S K V : Type} (M : PMapImpl S K V) (s : S) (k : K) (v : V) :
    Option (S × (V × Bool)) :=
  match M.load s k with
  | none => none
  | some (some actual) => some (s, (actual, true))
  | some none =>
    match M.store s k v with
    | none => none
    | some t => some (t, (v, false))

/-- `Swap` through possibly-panicking primitives. -/
def pSwap {S K V : Type} (M : PMapImpl S K V) (s : S) (k : K) (v : V) :
    Option (S × Option V) :=
  match M.load s k with
  | none => none
  | some prev =>
    match M.store s k v with
    | none => none
    | some t => some (t, prev)

/-- `CompareAndSwap` through possibly-panicking primitives. -/
def pCompareAndSwap {S K V : Type} [DecidableEq V] (M : PMapImpl S K V) (s : S) (k : K)
    (old new : V) : Option (S × Bool) :=
  match M.load s k with
  | none => none
  | some none => some (s, false)
  | some (some value) =>
    if value = old then
      match M.store s k new with
      | none => none
      | some t => some (t, true)
    else some (s, false)

/-- `CompareAndDelete` through possibly-panicking primitives. -/
def pCompareAndDelete {S K V : Type} [DecidableEq V] (M : PMapImpl S K V) (s : S) (k : K)
    (old : V) : Option (S × Bool) :=
  match M.load s k with
  | none => none
  | some none => some (s, false)
  | some (some value) =>
    if value = old then
      match M.delete s k with
      | none => none
      | some t => some (t, true)
    else some (s, false)

/-- `Keys` through possibly-panicking primitives. -/
def pKeysCount {S K V : Type} (M : PMapImpl S K V) (s : S) (g : K → Bool) : Option Nat :=
  match M.range s with
  | none => none
  | some ps => some (runVisit (fun k _ => g k) ps)

/-- `Values` through possibly-panicking primitives. -/
def pValuesCount {S K V : Type} (M : PMapImpl S K V) (s : S) (hv : V → Bool) : Option Nat :=
  match M.range s with
  | none => none
  | some ps => some (runVisit (fun _ v => hv v) ps)

theorem pDeleteAll_lift {S K V : Type} (M : MapImpl S K V) (ks : List K) (s : S) :
    pDeleteAll (pLift M) ks s = some (ks.foldl M.delete s) := by
  induction ks generalizing s with
  | nil => rfl
  | cons k ks ih =>
    have hd : (pLift M).delete s k = some (M.delete s k) := rfl
    simp only [pDeleteAll, hd, List.foldl_cons]
    exact ih (M.delete s k)

theorem pClear_lift {S K V : Type} (M : MapImpl S K V) (s : S) :
    pClear (pLift M) s = some (dClear M s) := by
  have hr : (pLift M).range s = some (M.range s) := rfl
  simp only [pClear, hr, dClear]
  exact pDeleteAll_lift M _ s

theorem pLen_lift {S K V : Type} (M : MapImpl S K V) (s : S) :
    pLen (pLift M) s = some (dLen M s) := rfl

theorem pLoadAndDelete_lift {S K V : Type} (M : MapImpl S K V) (s : S) (k : K) :
    pLoadAndDelete (pLift M) s k = some (dLoadAndDelete M s k) := by
  rcases hl : M.load s k with _ | v <;>
    simp [pLoadAndDelete, pLift, dLoadAndDelete, hl]

theorem pLoadOrStore_lift {S K V : Type} (M : MapImpl S K V) (s : S) (k : K) (v : V) :
    pLoadOrStore (pLift M) s k v = some (dLoadOrStore M s k v) := by
  rcases hl : M.load s k with _ | w <;>
    simp [pLoadOrStore, pLift, dLoadOrStore, hl]

theorem pSwap_lift {S K V : Type} (M : MapImpl S K V) (s : S) (k : K) (v : V) :
    pSwap (pLift M) s k v = some (dSwap M s k v) := rfl

theorem pCompareAndSwap_lift {S K V : Type} [DecidableEq V] (M : MapImpl S K V) (s : S)
    (k : K) (old new : V) :
    pCompareAndSwap (pLift M) s k old new = some (dCompareAndSwap M s k old new) := by
  rcases hl : M.load s k with _ | w
  · simp [pCompareAndSwap, pLift, dCompareAndSwap, hl]
  · by_cases hw : w = old <;>
      simp [pCompareAndSwap, pLift, dCompareAndSwap, hl, hw]

theorem pCompareAndDelete_lift {S K V : Type} [DecidableEq V] (M : MapImpl S K V) (s : S)
    (k : K) (old : V) :
    pCompareAndDelete (pLift M) s k old = some (dCompareAndDelete M s k old) := by
  rcases hl : M.load s k with _ | w
  · simp [pCompareAndDelete, pLift, dCompareAndDelete, hl]
  · by_cases hw : w = old <;>
      simp [pCompareAndDelete, pLift, dCompareAndDelete, hl, hw]

theorem pKeysCount_lift {S K V : Type} (M : MapImpl S K V) (s : S) (g : K → Bool) :
    pKeysCount (pLift M) s g = some (dKeysCount M s g) := rfl

theorem pValuesCount_lift {S K V : Type} (M : MapImpl S K V) (s : S) (hv : V → Bool) :
    pValuesCount (pLift M) s hv = some (dValuesCount M s hv) := rfl

/-- C10: with `NewUnorderedMap` or `NewOrderedMap` as backend, no derived
operation ever reaches a "not implemented" panic stub: dispatch goes to
the concrete backend's total `Load`/`Store`/`Delete`/`Range`, so every
derived operation computes (`some`) its pure result; on the bare scaffold
with no backend wired in, even `Len` hits the stub and aborts (`none`). -/
theorem derived_ops_never_panic {K V : Type} [DecidableEq K] [DecidableEq V] :
    (∀ (m : UMap K V) (k : K) (v old new : V) (g : K → Bool) (hv : V → Bool),
      pClear (pLift (uImpl K V)) m = some (dClear (uImpl K V) m) ∧
      pLen (pLift (uImpl K V)) m = some (dLen (uImpl K V) m) ∧
      pLoadAndDelete (pLift (uImpl K V)) m k = some (dLoadAndDelete (uImpl K V) m k) ∧
      pLoadOrStore (pLift (uImpl K V)) m k v = some (dLoadOrStore (uImpl K V) m k v) ∧
      pSwap (pLift (uImpl K V)) m k v = some (dSwap (uImpl K V) m k v) ∧
      pCompareAndSwap (pLift (uImpl K V)) m k old new =
        some (dCompareAndSwap (uImpl K V) m k old new) ∧
      pCompareAndDelete (pLift (uImpl K V)) m k old =
        some (dCompareAndDelete (uImpl K V) m k old) ∧
      pKeysCount (pLift (uImpl K V)) m g = some (dKeysCount (uImpl K V) m g) ∧
      pValuesCount (pLift (uImpl K V)) m hv = some (dValuesCount (uImpl K V) m hv)) ∧
    (∀ (om : OMap K V) (k : K) (v old new : V) (g : K → Bool) (hv : V → Bool),
      pClear (pLift (oImpl K V)) om = some (dClear (oImpl K V) om) ∧
      pLen (pLift (oImpl K V)) om = some (dLen (oImpl K V) om) ∧
      pLoadAndDelete (pLift (oImpl K V)) om k = some (dLoadAndDelete (oImpl K V) om k) ∧
      pLoadOrStore (pLift (oImpl K V)) om k v = some (dLoadOrStore (oImpl K V) om k v) ∧
      pSwap (pLift (oImpl K V)) om k v = some (dSwap (oImpl K V) om k v) ∧
      pCompareAndSwap (pLift (oImpl K V)) om k old new =
        some (dCompareAndSwap (oImpl K V) om k old new) ∧
      pCompareAndDelete (pLift (oImpl K V)) om k old =
        some (dCompareAndDelete (oImpl K V) om k old) ∧
      pKeysCount (pLift (oImpl K V)) om g = some (dKeysCount (oImpl K V) om g) ∧
      pValuesCount (pLift (oImpl K V)) om hv = some (dValuesCount (oImpl K V) om hv)) ∧
    (∀ m : UMap K V, pLen (pStub (UMap K V) K V) m = none) := by
  refine ⟨?_, ?_, ?_⟩
  · intro m k v old new g hv
    exact ⟨pClear_lift _ m, pLen_lift _ m, pLoadAndDelete_lift _ m k,
      pLoadOrStore_lift _ m k v, pSwap_lift _ m k v, pCompareAndSwap_lift _ m k old new,
      pCompareAndDelete_lift _ m k old, pKeysCount_lift _ m g, pValuesCount_lift _ m hv⟩
  · intro om k v old new g hv
    exact ⟨pClear_lift _ om, pLen_lift _ om, pLoadAndDelete_lift _ om k,
      pLoadOrStore_lift _ om k v, pSwap_lift _ om k v, pCompareAndSwap_lift _ om k old new,
      pCompareAndDelete_lift _ om k old, pKeysCount_lift _ om g, pValuesCount_lift _ om hv⟩
  · intro m
    rfl
